import Mathlib

/-!
Shallow embedding of the portfolio-lab repository (holdings reconstruction,
split adjustment, valuation, cashflow-adjusted returns, analytics range
selection, ticker mapping, provider retry loop), with theorems checking the
specification's claims against the code.

Numeric cells are modelled as exact rationals (`ℚ`); where IEEE special
values (NaN / ±inf) are observable — the weights division — an explicit
`FVal` type models them.
-/

namespace PortfolioLab

instance {E A : Type} [DecidableEq E] [DecidableEq A] :
    DecidableEq (Except E A) := fun x y =>
  match x, y with
  | .ok a, .ok b =>
    if h : a = b then .isTrue (by rw [h])
    else .isFalse (by intro hc; cases hc; exact h rfl)
  | .ok _, .error _ => .isFalse (by intro h; cases h)
  | .error _, .ok _ => .isFalse (by intro h; cases h)
  | .error e, .error f =>
    if h : e = f then .isTrue (by rw [h])
    else .isFalse (by intro hc; cases hc; exact h rfl)

/-! ## Ticker mapping (`Holdings._convert_etoro_tickers`, holdings.py 138-158)

The mapper table is `_TICKER_MAPPER`, a dict from broker symbol to canonical
symbol; we model it as an association list.  A Details value like
`"NVDA/USD ..."` yields the raw symbol `value.split('/')[0]`.  The function
either returns the mapped series (same index) or raises `MappingError`
carrying `set(unmapped)`; the error payload is modelled as a `Finset`. -/

/-- Python `str.split(sep)` with a one-character separator, over the
character list (structural recursion, so that concrete inputs evaluate). -/
def splitOnChar (c : Char) : List Char → List (List Char)
  | [] => [[]]
  | x :: xs =>
    let r := splitOnChar c xs
    if x = c then [] :: r
    else (x :: r.headD []) :: r.tail

/-- Python `value.split(c)` as a list of strings. -/
def pySplit (value : String) (c : Char) : List String :=
  (splitOnChar c value.toList).map String.mk

/-- `value.split('/')[0]` : the raw broker symbol of a Details cell. -/
def rawSymbol (value : String) : String :=
  (pySplit value '/').headD ""

/-- Dict lookup in the ticker-mapper table. -/
def mapLookup (mapper : List (String × String)) (k : String) : Option String :=
  (mapper.find? (fun p => p.1 = k)).map Prod.snd

/-- Membership test `i not in Holdings._TICKER_MAPPER`. -/
def unmappedIn (mapper : List (String × String)) (k : String) : Prop :=
  mapLookup mapper k = none

instance (mapper : List (String × String)) (k : String) :
    Decidable (unmappedIn mapper k) := by
  unfold unmappedIn; infer_instance

/-- `Holdings._convert_etoro_tickers`: extract the raw symbols, collect the
unmapped ones in one pass, and either raise `MappingError` with the set of
unmapped symbols or return the mapped series on the input's index. -/
def convertEtoroTickers (mapper : List (String × String))
    (series : List (ℕ × String)) : Except (Finset String) (List (ℕ × String)) :=
  let old_ticks := series.map (fun p => rawSymbol p.2)
  let unmapped := old_ticks.filter (fun t => mapLookup mapper t = none)
  if unmapped.isEmpty then
    .ok (series.map (fun p => (p.1, (mapLookup mapper (rawSymbol p.2)).getD "")))
  else
    .error unmapped.toFinset

/-! ## Provider retry loop (`_retry`, pyfinex/providers/base.py 25-45)

The wrapped call is modelled as a function from the attempt number (1-based)
to an `Except`: `.ok` is a normal return, `.error` an exception.  The Python
loop `for attempt in range(1, n+1)` returns the first success, retries on
failure while `attempt < n`, and re-raises the last exception at attempt
`n`; with `n = 0` the loop body never runs and the wrapper returns `None`. -/

inductive RetryOutcome (E A : Type) where
  | success (a : A)
  | failure (e : E)
  | noneReturn
  deriving DecidableEq, Repr

/-- The retry loop over the (remaining) list of attempt results. -/
def retryList {E A : Type} : List (Except E A) → RetryOutcome E A
  | [] => .noneReturn
  | [x] =>
    match x with
    | .ok a => .success a
    | .error e => .failure e
  | x :: y :: xs =>
    match x with
    | .ok a => .success a
    | .error _ => retryList (y :: xs)

/-- `_retry(n, wait)` applied to a call whose `k`-th attempt yields
`attempts k` (attempts numbered from 1, as in the Python loop). -/
def retryRun {E A : Type} (attempts : ℕ → Except E A) (n : ℕ) :
    RetryOutcome E A :=
  retryList ((List.range n).map (fun i => attempts (i + 1)))

lemma retryList_failure_iff {E A : Type} (l : List (Except E A)) (hl : l ≠ [])
    (e : E) :
    retryList l = .failure e ↔
      (∀ x ∈ l, ∃ e', x = .error e') ∧ l.getLast hl = .error e := by
  induction l with
  | nil => exact absurd rfl hl
  | cons x xs ih =>
    cases xs with
    | nil =>
      cases x with
      | ok a =>
        simp [retryList]
      | error e' =>
        simp only [retryList, List.getLast, List.mem_singleton]
        constructor
        · intro h
          cases h
          exact ⟨fun x hx => ⟨e, hx⟩, rfl⟩
        · rintro ⟨-, h⟩
          cases h
          rfl
    | cons y ys =>
      cases x with
      | ok a =>
        simp [retryList]
      | error e' =>
        have hne : y :: ys ≠ ([] : List (Except E A)) := by simp
        rw [show retryList (Except.error e' :: y :: ys) = retryList (y :: ys)
              from rfl,
            ih hne]
        constructor
        · rintro ⟨hall, hlast⟩
          refine ⟨?_, ?_⟩
          · intro z hz
            rcases List.mem_cons.mp hz with hz | hz
            · exact ⟨e', hz⟩
            · exact hall z hz
          · rwa [List.getLast_cons hne]
        · rintro ⟨hall, hlast⟩
          refine ⟨fun z hz => hall z (List.mem_cons_of_mem _ hz), ?_⟩
          rwa [List.getLast_cons hne] at hlast

lemma retryList_first_success {E A : Type} :
    ∀ (l : List (Except E A)) (i : ℕ) (hi : i < l.length) (a : A),
      l.get ⟨i, hi⟩ = .ok a →
      (∀ j (hj : j < i), ∃ e, l.get ⟨j, Nat.lt_trans hj hi⟩ = .error e) →
      retryList l = .success a := by
  intro l
  induction l with
  | nil => intro i hi; exact absurd hi (by simp)
  | cons x xs ih =>
    intro i hi a hok hprev
    cases i with
    | zero =>
      have hx : x = .ok a := hok
      subst hx
      cases xs with
      | nil => rfl
      | cons y ys => rfl
    | succ m =>
      obtain ⟨e, he⟩ := hprev 0 (Nat.succ_pos m)
      have hx : x = .error e := he
      subst hx
      cases xs with
      | nil => exact absurd hi (by simp)
      | cons y ys =>
        have hm : m < (y :: ys).length := Nat.lt_of_succ_lt_succ hi
        have : retryList (Except.error e :: y :: ys) = retryList (y :: ys) :=
          rfl
        rw [this]
        refine ih m hm a hok ?_
        intro j hj
        exact hprev (j + 1) (Nat.succ_lt_succ hj)

/-- C9: the retry wrapper returns the value of the first successful
attempt unchanged when some attempt `k ≤ n` succeeds (all earlier attempts
having failed), and it raises the last underlying failure if and only if
all `n` attempts fail (the raised exception being exactly attempt `n`'s). -/
theorem retry_first_success_and_exhaustion {E A : Type}
    (attempts : ℕ → Except E A) (n : ℕ) (hn : 1 ≤ n) :
    (∀ k a, 1 ≤ k → k ≤ n → attempts k = .ok a →
        (∀ j, 1 ≤ j → j < k → ∃ e, attempts j = .error e) →
        retryRun attempts n = .success a) ∧
    (∀ e, retryRun attempts n = .failure e ↔
        ((∀ k, 1 ≤ k → k ≤ n → ∃ e', attempts k = .error e') ∧
          attempts n = .error e)) := by
  set l : List (Except E A) := (List.range n).map (fun i => attempts (i + 1))
    with hl_def
  have hlen : l.length = n := by simp [hl_def]
  have hl : l ≠ [] := by
    intro h
    rw [h] at hlen
    simp at hlen
    omega
  have hget : ∀ (i : ℕ) (hi : i < l.length),
      l.get ⟨i, hi⟩ = attempts (i + 1) := by
    intro i hi
    simp [hl_def]
  constructor
  · intro k a hk1 hkn hok hprev
    have hik : k - 1 < l.length := by omega
    refine retryList_first_success l (k - 1) hik a ?_ ?_
    · rw [hget (k - 1) hik]
      have : k - 1 + 1 = k := by omega
      rw [this]
      exact hok
    · intro j hj
      rw [hget j (Nat.lt_trans hj hik)]
      exact hprev (j + 1) (by omega) (by omega)
  · intro e
    rw [show retryRun attempts n = retryList l from rfl,
        retryList_failure_iff l hl e]
    have hlast : l.getLast hl = attempts n := by
      rw [List.getLast_eq_get l hl, hget (l.length - 1) (by omega)]
      congr 1
      omega
    rw [hlast]
    constructor
    · rintro ⟨hall, hlast'⟩
      refine ⟨?_, hlast'⟩
      intro k hk1 hkn
      have hmem : attempts k ∈ l := by
        rw [hl_def]
        refine List.mem_map.mpr ⟨k - 1, List.mem_range.mpr (by omega), ?_⟩
        congr 1
        omega
      obtain ⟨e', he'⟩ := hall _ hmem
      exact ⟨e', he'⟩
    · rintro ⟨hall, hlast'⟩
      refine ⟨?_, hlast'⟩
      intro x hx
      rw [hl_def] at hx
      obtain ⟨i, hi, rfl⟩ := List.mem_map.mp hx
      exact hall (i + 1) (by omega) (by simpa using List.mem_range.mp hi)

/-- Witness for C9: with `retryLimit = 3`, two failures followed by a
success yield exactly the third attempt's response. -/
theorem retry_witness :
    retryRun (fun k => if k ≤ 2 then Except.error 0 else Except.ok (7 : ℕ)) 3
      = .success 7 :=
  (retry_first_success_and_exhaustion
      (fun k => if k ≤ 2 then Except.error 0 else Except.ok (7 : ℕ)) 3
      (by decide)).1
    3 7 (by decide) (by decide) (by simp)
    (fun j hj1 hj3 => ⟨0, by
      have : j ≤ 2 := by omega
      simp [this]⟩)

/-- C5: ticker mapping raises the unmapped-ticker error iff at least one
raw symbol is absent from the mapping table; the error carries exactly the
set of all distinct unmapped symbols found in one pass; when every symbol
is mapped, the mapped series is returned on the input's index. -/
theorem convert_tickers_spec (mapper : List (String × String))
    (series : List (ℕ × String)) :
    ((∃ S, convertEtoroTickers mapper series = .error S) ↔
        ∃ p ∈ series, mapLookup mapper (rawSymbol p.2) = none) ∧
    (∀ S, convertEtoroTickers mapper series = .error S →
        ∀ t, t ∈ S ↔
          ∃ p ∈ series, rawSymbol p.2 = t ∧ mapLookup mapper t = none) ∧
    (∀ out, convertEtoroTickers mapper series = .ok out →
        List.Forall₂
          (fun p q => q.1 = p.1 ∧
            mapLookup mapper (rawSymbol p.2) = some q.2) series out) := by
  unfold convertEtoroTickers
  simp only []
  by_cases hemp :
      ((series.map (fun p => rawSymbol p.2)).filter
        (fun t => mapLookup mapper t = none)).isEmpty
  · have hnil :
        ((series.map (fun p => rawSymbol p.2)).filter
          (fun t => mapLookup mapper t = none)) = [] :=
      List.isEmpty_iff.mp hemp
    have hall : ∀ p ∈ series, mapLookup mapper (rawSymbol p.2) ≠ none := by
      intro p hp hnone
      have hmem : rawSymbol p.2 ∈
          ((series.map (fun p => rawSymbol p.2)).filter
            (fun t => mapLookup mapper t = none)) :=
        List.mem_filter.mpr
          ⟨List.mem_map.mpr ⟨p, hp, rfl⟩, by simp [hnone]⟩
      rw [hnil] at hmem
      exact absurd hmem (List.not_mem_nil _)
    rw [if_pos hemp]
    refine ⟨?_, ?_, ?_⟩
    · constructor
      · rintro ⟨S, hS⟩
        exact absurd hS (by simp)
      · rintro ⟨p, hp, hnone⟩
        exact absurd hnone (hall p hp)
    · intro S hS
      exact absurd hS (by simp)
    · intro out hout
      have hout' :
          out = series.map
            (fun p => (p.1, (mapLookup mapper (rawSymbol p.2)).getD "")) := by
        simpa using hout.symm
      subst hout'
      rw [List.forall₂_map_right_iff]
      rw [List.forall₂_same]
      intro p hp
      refine ⟨rfl, ?_⟩
      rcases ho : mapLookup mapper (rawSymbol p.2) with _ | v
      · exact absurd ho (hall p hp)
      · simp
  · have hne :
        ((series.map (fun p => rawSymbol p.2)).filter
          (fun t => mapLookup mapper t = none)) ≠ [] := by
      intro h
      rw [h] at hemp
      exact hemp rfl
    rw [if_neg hemp]
    refine ⟨?_, ?_, ?_⟩
    · constructor
      · rintro ⟨S, -⟩
        obtain ⟨t, ht⟩ := List.exists_mem_of_ne_nil _ hne
        obtain ⟨htm, htn⟩ := List.mem_filter.mp ht
        obtain ⟨p, hp, rfl⟩ := List.mem_map.mp htm
        exact ⟨p, hp, by simpa using htn⟩
      · intro _
        exact ⟨_, rfl⟩
    · intro S hS t
      have hSe :
          S = ((series.map (fun p => rawSymbol p.2)).filter
            (fun t => mapLookup mapper t = none)).toFinset := by
        simpa using hS.symm
      subst hSe
      rw [List.mem_toFinset, List.mem_filter]
      constructor
      · rintro ⟨htm, htn⟩
        obtain ⟨p, hp, rfl⟩ := List.mem_map.mp htm
        exact ⟨p, hp, rfl, by simpa using htn⟩
      · rintro ⟨p, hp, rfl, hnone⟩
        exact ⟨List.mem_map.mpr ⟨p, hp, rfl⟩, by simp [hnone]⟩
    · intro out hout
      exact absurd hout (by simp)

/-- Witness for C5: for an input whose only unmapped symbol is `"ZZZ"`,
conversion raises the error listing exactly `{"ZZZ"}`. -/
theorem convert_tickers_witness :
    convertEtoroTickers [("NVDA", "NVDA.O")] [(0, "ZZZ/USD"), (1, "NVDA/USD")]
        = .error {"ZZZ"} ∧
      (("ZZZ" ∈ ({"ZZZ"} : Finset String)) ↔
        ∃ p ∈ [((0 : ℕ), "ZZZ/USD"), (1, "NVDA/USD")],
          rawSymbol p.2 = "ZZZ" ∧
            mapLookup [("NVDA", "NVDA.O")] "ZZZ" = none) :=
  ⟨by decide,
    (convert_tickers_spec [("NVDA", "NVDA.O")]
        [(0, "ZZZ/USD"), (1, "NVDA/USD")]).2.1
      {"ZZZ"} (by decide) "ZZZ"⟩

/-! ## Date-range selection (`Asset._hpr_range`, `Asset._adv_hpr_range`,
pyfinex/asset.py 98-127, and `closest_date`, pyfinex/utils.py 59-65)

Dates are modelled as naturals; the return series' index is a sorted list.
`closest_date` is `np.abs(index - target).argmin()` (first occurrence of
the minimum) followed by a lookup; a `.loc[a:b]` slice on a monotonic
date index keeps exactly the index entries between the two labels. -/

/-- Absolute distance between two dates. -/
def natDist (a b : ℕ) : ℕ := max a b - min a b

/-- `closest_date`: the index entry at the first position minimising the
absolute distance to the target (`np.argmin` keeps the first minimum). -/
def closestDate (idx : List ℕ) (t : ℕ) : ℕ :=
  match idx with
  | [] => 0
  | x :: xs =>
    xs.foldl (fun best d => if natDist d t < natDist best t then d else best) x

/-- `series.loc[a:b]` on a monotonic date index. -/
def locSlice (idx : List ℕ) (a b : ℕ) : List ℕ :=
  idx.filter (fun d => a ≤ d ∧ d ≤ b)

/-- `Asset._adv_hpr_range`: `if sdate not in index: sdate = closest…`
`elif edate not in index: edate = closest…`, then slice. -/
def advHprRange (idx : List ℕ) (s e : ℕ) : List ℕ :=
  if s ∉ idx then locSlice idx (closestDate idx s) e
  else if e ∉ idx then locSlice idx s (closestDate idx e)
  else locSlice idx s e

/-- `Asset._hpr_range` with both boundary dates supplied: slice directly
when both are in the index, otherwise defer to `_adv_hpr_range`. -/
def hprRange (idx : List ℕ) (s e : ℕ) : List ℕ :=
  if s ∈ idx ∧ e ∈ idx then locSlice idx s e else advHprRange idx s e

/-- C7 exhibit: on the series indexed `{0, 10}` with requested range
`(5, 6)` — both boundaries absent — the code snaps only the start date
(the `elif` skips the end date), returning just `[0]`, whereas snapping
both boundaries to their nearest index dates (`0` and `10`) selects the
whole series `[0, 10]`. -/
theorem range_selection_skips_end_snap :
    hprRange [0, 10] 5 6 = [0] ∧
      closestDate [0, 10] 5 = 0 ∧
      closestDate [0, 10] 6 = 10 ∧
      locSlice [0, 10] (closestDate [0, 10] 5) (closestDate [0, 10] 6)
        = [0, 10] := by
  decide

/-! ## Cashflow-adjusted returns (`Portfolio._hpr`,
pyfinex/portfolio.py 122-154)

The outer-joined working table has one row per date carrying an optional
NAV and an optional cashflow; `adj_cf` starts at zero everywhere.  For
every row `i` with a non-null cashflow the code scans `j = i-1, i-2, …, 0`
for a non-null NAV and, if one exists, adds the cashflow to
`df.at[i-1, 'adj_cf']` — the write index is `i-1`, not the found `j`. -/

structure HprRow where
  date : ℕ
  nav : Option ℚ
  cf : Option ℚ
  deriving DecidableEq

/-- The while-loop condition: some row strictly before `i` has a non-null
NAV (`j` runs from `i-1` down to `0`). -/
def hasPricedBefore (navs : List (Option ℚ)) (i : ℕ) : Bool :=
  (List.range i).any (fun j => (navs.getD j none).isSome)

/-- One iteration of the outer loop for the cashflow `val` found at row
`i`: if the backward scan finds a priced row, add `val` to the
adjusted-cashflow cell at row `i - 1` (as the code does). -/
def adjStep (navs : List (Option ℚ)) (adj : List ℚ) (i : ℕ) (val : ℚ) :
    List ℚ :=
  if hasPricedBefore navs i then adj.set (i - 1) (adj.getD (i - 1) 0 + val)
  else adj

/-- The `adj_cf` column after the attribution loop of `Portfolio._hpr`. -/
def adjCf (rows : List HprRow) : List ℚ :=
  let navs := rows.map (·.nav)
  (List.range rows.length).foldl
    (fun adj i =>
      match (rows.getD i ⟨0, none, none⟩).cf with
      | none => adj
      | some val => adjStep navs adj i val)
    (List.replicate rows.length 0)

/-- C1 exhibit: NAV priced on dates 0 and 3, cashflows of 50 and 30 on the
unpriced dates 1 and 2.  The code credits the 30 to row 1 — a row with no
NAV, which `dropna` then discards — instead of to row 0, the nearest
earlier priced row; row 0 ends with 50, not 80. -/
theorem hpr_adjcf_lands_on_dropped_row :
    adjCf [⟨0, some 100, none⟩, ⟨1, none, some 50⟩,
           ⟨2, none, some 30⟩, ⟨3, some 200, none⟩]
        = [50, 30, 0, 0] ∧
      (([⟨0, some 100, none⟩, ⟨1, none, some 50⟩,
         ⟨2, none, some 30⟩, ⟨3, some 200, none⟩] : List HprRow).getD 1
          ⟨0, none, none⟩).nav = none ∧
      (adjCf [⟨0, some 100, none⟩, ⟨1, none, some 50⟩,
              ⟨2, none, some 30⟩, ⟨3, some 200, none⟩]).getD 0 0
        ≠ 50 + 30 := by
  have h : adjCf [⟨0, some 100, none⟩, ⟨1, none, some 50⟩,
      ⟨2, none, some 30⟩, ⟨3, some 200, none⟩] = [0 + 50, 0 + 30, 0, 0] := rfl
  refine ⟨?_, rfl, ?_⟩
  · rw [h]
    norm_num
  · rw [h]
    norm_num

/-! ## Portfolio start/end dates (`Portfolio.__init__`,
pyfinex/portfolio.py 99-102, vs `Asset.__init__`, pyfinex/asset.py 43)

`Portfolio._hpr` drops the rows without NAV, computes `pct_change`, and
returns `hpr.iloc[1:]`; the HPR index is therefore the priced dates minus
the first.  The constructor then sets
`self.sdate, self.edate = self.hpr.index[0], self.hpr.index[1]`, while
`Asset.__init__` sets `self.hpr.index[0], self.hpr.index[-1]`. -/

/-- The index of the HPR series produced by `Portfolio._hpr`: the dates
carrying a non-null NAV, with the first one dropped. -/
def hprIndexOf (rows : List HprRow) : List ℕ :=
  ((rows.filter (fun r => r.nav.isSome)).map (·.date)).drop 1

/-- `self.sdate, self.edate = self.hpr.index[0], self.hpr.index[1]`
(raises `IndexError` — `none` — when the HPR series is shorter than 2). -/
def portfolioDates (rows : List HprRow) : Option (ℕ × ℕ) :=
  match hprIndexOf rows with
  | d0 :: d1 :: _ => some (d0, d1)
  | _ => none

/-- `Asset.__init__`'s end date: `hpr.index[-1]`. -/
def assetEdate (idx : List ℕ) : Option ℕ := idx.getLast?

/-- C10: for a portfolio whose computed HPR series has at least two
entries, the constructor sets `sdate` to the first HPR date and `edate`
to the HPR date at index position 1 — not the last one — while
`Asset.__init__` sets `edate` to the final index entry; with at least
three HPR entries on a strictly increasing date index, the two end dates
differ. -/
theorem portfolio_edate_is_second_hpr_date (rows : List HprRow)
    (hsorted : List.Sorted (· < ·) (rows.map (·.date)))
    (h2 : 2 ≤ (hprIndexOf rows).length) :
    portfolioDates rows
        = some ((hprIndexOf rows).headD 0, (hprIndexOf rows).getD 1 0) ∧
      assetEdate (hprIndexOf rows) = some ((hprIndexOf rows).getLastD 0) ∧
      (3 ≤ (hprIndexOf rows).length →
        (hprIndexOf rows).getD 1 0 ≠ (hprIndexOf rows).getLastD 0) := by
  have hsub : List.Sorted (· < ·) (hprIndexOf rows) := by
    have h1 : List.Sublist (hprIndexOf rows) (rows.map (·.date)) := by
      unfold hprIndexOf
      exact List.Sublist.trans (List.drop_sublist _ _)
        (List.Sublist.map _ (List.filter_sublist rows))
    exact List.Pairwise.sublist h1 hsorted
  rcases hidx : hprIndexOf rows with _ | ⟨d0, _ | ⟨d1, rest⟩⟩
  · rw [hidx] at h2
    simp at h2
  · rw [hidx] at h2
    simp at h2
  · rw [hidx] at hsub
    refine ⟨?_, ?_, ?_⟩
    · unfold portfolioDates
      rw [hidx]
      rfl
    · unfold assetEdate
      rw [List.getLast?_eq_getLast_of_ne_nil (l := d0 :: d1 :: rest) (by simp),
          List.getLastD_eq_getLast?,
          List.getLast?_eq_getLast_of_ne_nil (l := d0 :: d1 :: rest) (by simp),
          Option.getD_some]
    · intro h3
      rcases rest with _ | ⟨d2, rest'⟩
      · simp at h3
      · have hlast : (d0 :: d1 :: d2 :: rest').getLastD 0
            = (d2 :: rest').getLast (by simp) := by
          rw [List.getLastD_eq_getLast?,
              List.getLast?_eq_getLast_of_ne_nil
                (l := d0 :: d1 :: d2 :: rest') (by simp),
              Option.getD_some, List.getLast_cons (by simp),
              List.getLast_cons (by simp)]
        have hmem : (d2 :: rest').getLast (by simp) ∈ d2 :: rest' :=
          List.getLast_mem _
        have hlt : d1 < (d2 :: rest').getLast (by simp) := by
          have := (List.sorted_cons.mp (List.sorted_cons.mp hsub).2).1
          exact this _ hmem
        intro heq
        rw [show (d0 :: d1 :: d2 :: rest').getD 1 0 = d1 from rfl, hlast] at heq
        exact absurd heq (Nat.ne_of_lt hlt)

/-- Witness for C10: four priced dates `0 < 1 < 2 < 3` give the HPR index
`[1, 2, 3]`; the portfolio constructor picks `(sdate, edate) = (1, 2)`
while the `Asset` end date is `3`. -/
theorem portfolio_edate_witness :
    portfolioDates [⟨0, some 1, none⟩, ⟨1, some 2, none⟩,
        ⟨2, some 3, none⟩, ⟨3, some 4, none⟩] = some (1, 2) ∧
      assetEdate (hprIndexOf [⟨0, some 1, none⟩, ⟨1, some 2, none⟩,
        ⟨2, some 3, none⟩, ⟨3, some 4, none⟩]) = some 3 ∧
      (2 : ℕ) ≠ 3 := by
  have h := portfolio_edate_is_second_hpr_date
    [⟨0, some 1, none⟩, ⟨1, some 2, none⟩, ⟨2, some 3, none⟩,
      ⟨3, some 4, none⟩]
    (by decide) (by decide)
  exact ⟨h.1.trans (by decide), h.2.1.trans (by decide),
    by simpa using h.2.2 (by decide)⟩

/-! ## Split adjustment, single asset column (`Holdings._adjust_splits`,
portfolio/holdings.py 210-222, and `Holdings.from_etoro`, 119-131)

`trades` is the daily change matrix; one asset's column is a list of
rationals indexed by day offset.  For a split on day `d`:
`held = trades.loc[:d, asset].cumsum().iloc[-1]` (inclusive sum through
`d`), `new = held * multiplier`, and `trades.loc[d, asset] += new - held`.
`from_etoro` then takes the cumulative sum, clamps values within `1e-10`
of zero to exactly `0`, and forward-fills the last row through
"yesterday". -/

/-- `trades.loc[:d, asset].cumsum().iloc[-1]`: inclusive sum through day
`d`. -/
def heldThrough (changes : List ℚ) (d : ℕ) : ℚ :=
  (changes.take (d + 1)).sum

/-- `trades.loc[d, asset] += held * multiplier - held`. -/
def applySplitAt (changes : List ℚ) (d : ℕ) (m : ℚ) : List ℚ :=
  changes.set d
    (changes.getD d 0 + (heldThrough changes d * m - heldThrough changes d))

/-- `trades.cumsum()` over one column. -/
def cumsum (l : List ℚ) : List ℚ :=
  (List.range l.length).map (fun t => (l.take (t + 1)).sum)

/-- `holdings[abs(holdings) < 1e-10] = 0`. -/
def clampQ (x : ℚ) : ℚ := if |x| < 1 / 10 ^ 10 then 0 else x

def clampAll (l : List ℚ) : List ℚ := l.map clampQ

/-- The reconstructed holdings of one asset on day `t`:
`trades.cumsum()` clamped, then `reindex(full_range).ffill()` — days past
the last change row carry the last value forward. -/
def holdingsFF (changes : List ℚ) (t : ℕ) : ℚ :=
  if t < changes.length then (clampAll (cumsum changes)).getD t 0
  else (clampAll (cumsum changes)).getLastD 0

lemma cumsum_getD (l : List ℚ) (t : ℕ) (h : t < l.length) :
    (cumsum l).getD t 0 = (l.take (t + 1)).sum := by
  unfold cumsum
  rw [List.getD_eq_getElem?_getD, List.getElem?_map, List.getElem?_range h]
  rfl

lemma clampAll_getD (l : List ℚ) (t : ℕ) (h : t < l.length) :
    (clampAll l).getD t 0 = clampQ (l.getD t 0) := by
  unfold clampAll
  rw [List.getD_eq_getElem?_getD, List.getElem?_map,
      List.getD_eq_getElem?_getD, List.getElem?_eq_getElem h]
  rfl

lemma holdingsFF_eval (changes : List ℚ) (t : ℕ) (h : t < changes.length) :
    holdingsFF changes t = clampQ ((changes.take (t + 1)).sum) := by
  unfold holdingsFF
  rw [if_pos h, clampAll_getD _ _ (by simpa [cumsum] using h),
      cumsum_getD _ _ h]

lemma getLastD_eq_getD_pred (l : List ℚ) (h : l ≠ []) :
    l.getLastD 0 = l.getD (l.length - 1) 0 := by
  rw [List.getLastD_eq_getLast?, List.getLast?_eq_getLast_of_ne_nil h,
      Option.getD_some, List.getLast_eq_get, List.getD_eq_get]

lemma holdingsFF_last (changes : List ℚ) (t : ℕ) (hne : changes ≠ [])
    (h : ¬ t < changes.length) :
    holdingsFF changes t
      = clampQ ((changes.take changes.length).sum) := by
  have hpos : 0 < changes.length := List.length_pos.mpr hne
  unfold holdingsFF
  rw [if_neg h]
  have hlen : (clampAll (cumsum changes)).length = changes.length := by
    simp [clampAll, cumsum]
  have hne' : clampAll (cumsum changes) ≠ [] := by
    intro hc
    rw [hc] at hlen
    exact hne (List.length_eq_zero.mp hlen.symm)
  rw [getLastD_eq_getD_pred _ hne', hlen,
      clampAll_getD _ _ (by simp [cumsum]; omega),
      cumsum_getD _ _ (by omega)]
  have hidx : changes.length - 1 + 1 = changes.length := by omega
  rw [hidx]

lemma sum_take_succ (l : List ℚ) (d : ℕ) (hd : d < l.length) :
    (l.take (d + 1)).sum = (l.take d).sum + l.getD d 0 := by
  rw [List.take_succ, List.sum_append, List.getD_eq_getElem _ _ hd]
  simp [List.getElem?_eq_getElem hd]

/-- C2 (amended by the near-zero clamp): a split of multiplier `m` on day
`d` of an asset holding `h > 0` units on the day before — with no trade
rows on or after `d` — leaves every day strictly before `d` unchanged and
sets every day from `d` onward to `m * h`, provided `m * h` is at least
the `1e-10` clamp threshold; the injected change-matrix entry is
`new - held` added to (not replacing) the existing change on `d`. -/
theorem split_roundtrip_holdings (changes : List ℚ) (d : ℕ) (m : ℚ)
    (hd : d < changes.length)
    (hafter : ∀ t, t < changes.length → d ≤ t → changes.getD t 0 = 0)
    (hpos : 0 < (changes.take d).sum)
    (hclamp : 1 / 10 ^ 10 ≤ m * (changes.take d).sum) :
    ((applySplitAt changes d m).getD d 0
        = changes.getD d 0
          + (heldThrough changes d * m - heldThrough changes d)) ∧
    (∀ t, t < d →
        holdingsFF (applySplitAt changes d m) t = holdingsFF changes t) ∧
    (∀ t, d ≤ t →
        holdingsFF (applySplitAt changes d m) t
          = m * (changes.take d).sum) := by
  set S : ℚ := (changes.take d).sum with hS
  have hd0 : changes.getD d 0 = 0 := hafter d hd le_rfl
  have hH : heldThrough changes d = S := by
    unfold heldThrough
    rw [sum_take_succ _ _ hd, hd0, add_zero]
  set v : ℚ := changes.getD d 0 + (heldThrough changes d * m
      - heldThrough changes d) with hv
  have hvS : v = S * m - S := by rw [hv, hH, hd0, zero_add]
  have happ : applySplitAt changes d m = changes.set d v := rfl
  have hsplit : changes.set d v
      = changes.take d ++ v :: changes.drop (d + 1) :=
    List.set_eq_take_cons_drop v hd
  have hlen_set : (changes.set d v).length = changes.length := by simp
  have hdrop0 : ∀ x ∈ changes.drop (d + 1), x = 0 := by
    intro x hx
    rw [List.mem_iff_getElem] at hx
    obtain ⟨i, hi, rfl⟩ := hx
    rw [List.getElem_drop]
    rw [List.length_drop] at hi
    have hlt : d + 1 + i < changes.length := by omega
    rw [← List.getD_eq_getElem _ _ hlt]
    exact hafter (d + 1 + i) hlt (by omega)
  have htake_lt : ∀ t, t < d →
      ((changes.set d v).take (t + 1)).sum = (changes.take (t + 1)).sum := by
    intro t ht
    rw [hsplit, List.take_append_eq_append_take, List.take_take,
        List.length_take]
    have h1 : min (t + 1) d = t + 1 := by omega
    have h2 : t + 1 - min d changes.length = 0 := by omega
    rw [h1, h2, List.take_zero, List.append_nil]
  have htake_ge : ∀ n, d + 1 ≤ n → n ≤ changes.length →
      ((changes.set d v).take n).sum = S * m := by
    intro n hn1 hn2
    rw [hsplit, List.take_append_eq_append_take, List.take_take,
        List.length_take]
    have h1 : min n d = d := by omega
    have h2 : n - min d changes.length = (n - d - 1) + 1 := by omega
    rw [h1, h2, List.take_succ_cons, List.sum_append, List.sum_cons]
    have h3 : ((changes.drop (d + 1)).take (n - d - 1)).sum = 0 :=
      List.sum_eq_zero (fun x hx => hdrop0 x (List.take_subset _ _ hx))
    rw [h3, add_zero, hvS, ← hS]
    ring
  have hclamp_id : clampQ (S * m) = S * m := by
    unfold clampQ
    rw [if_neg]
    rw [abs_of_pos (by nlinarith), not_lt]
    nlinarith
  refine ⟨?_, ?_, ?_⟩
  · rw [happ, List.getD_eq_getElem _ _ (by simpa using hd)]
    exact List.getElem_set_eq (by simpa using hd)
  · intro t ht
    rw [happ, holdingsFF_eval (changes.set d v) t (by rw [hlen_set]; omega),
        holdingsFF_eval changes t (by omega), htake_lt t ht]
  · intro t htd
    rw [happ]
    by_cases htl : t < changes.length
    · rw [holdingsFF_eval (changes.set d v) t (by rw [hlen_set]; omega),
          htake_ge (t + 1) (by omega) (by omega), hclamp_id]
      ring
    · have hne : changes.set d v ≠ [] := by
        intro hc
        have h0 : (changes.set d v).length = 0 := by rw [hc]; rfl
        rw [hlen_set] at h0
        omega
      rw [holdingsFF_last _ t hne (by rw [hlen_set]; exact htl), hlen_set,
          htake_ge changes.length (by omega) le_rfl, hclamp_id]
      ring

/-- Counterexample to C2 as stated: holding `h = 2^-40 > 0` units on the
day before a 2:1 split, the post-split balance `2 * 2^-40 ≈ 1.8e-12`
falls inside the `1e-10` clamp and reconstruction reports `0` units, not
`m * h`, from the split day onward. -/
theorem split_clamp_cex :
    0 < (([(1 : ℚ)/2^40, 0, 0]).take 1).sum ∧
      holdingsFF (applySplitAt [(1 : ℚ)/2^40, 0, 0] 1 2) 1 = 0 ∧
      (2 : ℚ) * (([(1 : ℚ)/2^40, 0, 0]).take 1).sum ≠ 0 := by
  refine ⟨by norm_num, ?_, by norm_num⟩
  norm_num [holdingsFF, applySplitAt, heldThrough, cumsum, clampAll, clampQ,
    List.range_succ]
  rw [abs_of_pos (by norm_num)]
  norm_num

/-- Witness for the amended C2: 10 units bought on day 0, split 2:1 on
day 2 — pre-split days keep their holdings and every day from the split
onward (including the forward-filled day 3) carries `2 * 10 = 20`. -/
theorem split_roundtrip_witness :
    holdingsFF (applySplitAt [(10 : ℚ), 0, 0, 0] 2 2) 1
        = holdingsFF [(10 : ℚ), 0, 0, 0] 1 ∧
      holdingsFF (applySplitAt [(10 : ℚ), 0, 0, 0] 2 2) 3
        = 2 * (([(10 : ℚ), 0, 0, 0]).take 2).sum ∧
      holdingsFF (applySplitAt [(10 : ℚ), 0, 0, 0] 2 2) 5
        = 2 * (([(10 : ℚ), 0, 0, 0]).take 2).sum ∧
      (2 : ℚ) * (([(10 : ℚ), 0, 0, 0]).take 2).sum = 20 := by
  have h := split_roundtrip_holdings [(10 : ℚ), 0, 0, 0] 2 2
    (by decide)
    (by
      intro t ht hdt
      have ht4 : t < 4 := ht
      interval_cases t <;> rfl)
    (by norm_num)
    (by norm_num)
  exact ⟨h.2.1 1 (by decide), h.2.2 3 (by decide), h.2.2 5 (by decide),
    by norm_num⟩

/-! ## Split extraction and same-day grouping (`Holdings._adjust_splits`,
portfolio/holdings.py 182-222)

Ledger rows carry a timestamp — modelled as a (normalized day, intraday
time) pair — a Type and a free-text Details cell.  The splits table is
the rows of type `'corp action: Split'`, `reset_index()` then
`drop_duplicates(subset=['Date', 'Details'])` (first occurrence of each
raw-timestamp/Details pair kept), parsed as `'<SYM>/<CCY> <N>:<M>'`,
ticker-mapped, date-normalized, and grouped by `(Date, Asset)` with the
multiplier product; the loop then applies each group to the trades
matrix. -/

structure LedgerRow where
  day : ℕ
  time : ℕ
  typ : String
  details : String
  deriving DecidableEq

def dropDupAux (seen : List (ℕ × ℕ × String)) :
    List LedgerRow → List LedgerRow
  | [] => []
  | r :: rs =>
    if (r.day, r.time, r.details) ∈ seen then dropDupAux seen rs
    else r :: dropDupAux ((r.day, r.time, r.details) :: seen) rs

/-- `drop_duplicates(subset=['Date', 'Details'])`: keep the first row for
each (raw timestamp, Details) pair. -/
def dropDupRows (rows : List LedgerRow) : List LedgerRow := dropDupAux [] rows

/-- The deduplicated rows of type `'corp action: Split'`. -/
def splitRowsOf (rows : List LedgerRow) : List LedgerRow :=
  dropDupRows (rows.filter (fun r => r.typ = "corp action: Split"))

def digitToNat (c : Char) : Option ℕ :=
  if '0' ≤ c ∧ c ≤ '9' then some (c.toNat - '0'.toNat) else none

def digitsToNatAux : ℕ → List Char → Option ℕ
  | acc, [] => some acc
  | acc, c :: cs =>
    match digitToNat c with
    | none => none
    | some d => digitsToNatAux (10 * acc + d) cs

/-- Python `int(...)` on a digit string (`ValueError` modelled as
`none`). -/
def pyInt (s : String) : Option ℕ :=
  match s.toList with
  | [] => none
  | cs => digitsToNatAux 0 cs

/-- `x.split(' ')[0]` of a split Details cell: the `SYMBOL/CCY` token. -/
def splitAssetRaw (details : String) : String :=
  (pySplit details ' ').headD ""

/-- `int(x.split(' ')[1].split(':')[0])`. -/
def splitNumerator (details : String) : Option ℕ :=
  pyInt ((pySplit ((pySplit details ' ').getD 1 "") ':').headD "")

/-- `int(x.split(' ')[1].split(':')[1])`. -/
def splitDenominator (details : String) : Option ℕ :=
  pyInt ((pySplit ((pySplit details ' ').getD 1 "") ':').getD 1 "")

/-- `splits['Multiplier'] = splits['Numerator'] / splits['Denominator']`. -/
def splitMultiplier (details : String) : Option ℚ :=
  match splitNumerator details, splitDenominator details with
  | some n, some d => some ((n : ℚ) / (d : ℚ))
  | _, _ => none

/-- The parsed `(normalized date, mapped asset, multiplier)` rows of the
splits table before the same-day grouping; `none` when a ticker is
unmapped (`MappingError`) or the Details text does not parse. -/
def parsedSplits (mapper : List (String × String)) (rows : List LedgerRow) :
    Option (List (ℕ × String × ℚ)) :=
  (splitRowsOf rows).mapM (fun r => do
    let asset ← mapLookup mapper (rawSymbol (splitAssetRaw r.details))
    let m ← splitMultiplier r.details
    pure (r.day, asset, m))

def keyLt (a b : ℕ × String) : Bool :=
  a.1 < b.1 || (a.1 == b.1 && decide (a.2 < b.2))

def insortKey (x : ℕ × String) : List (ℕ × String) → List (ℕ × String)
  | [] => [x]
  | y :: ys => if keyLt x y then x :: y :: ys else y :: insortKey x ys

def dedupKeysAux (seen : List (ℕ × String)) :
    List (ℕ × String) → List (ℕ × String)
  | [] => []
  | k :: ks =>
    if k ∈ seen then dedupKeysAux seen ks
    else k :: dedupKeysAux (k :: seen) ks

/-- `groupby(['Date', 'Asset'])['Multiplier'].prod()`: one row per
distinct (date, asset) key, keys in ascending order, each with the
product of its multipliers. -/
def groupProd (l : List (ℕ × String × ℚ)) : List (ℕ × String × ℚ) :=
  ((dedupKeysAux [] (l.map (fun x => (x.1, x.2.1)))).foldl
      (fun acc k => insortKey k acc) []).map
    (fun k => (k.1, k.2,
      ((l.filter (fun x => (x.1, x.2.1) = k)).map (fun x => x.2.2)).prod))

/-- One asset column of the daily change matrix, by column name. -/
def colOf (tr : List (String × List ℚ)) (a : String) : List ℚ :=
  ((tr.find? (fun p => p.1 = a)).map Prod.snd).getD []

def setColTr (tr : List (String × List ℚ)) (a : String) (c : List ℚ) :
    List (String × List ℚ) :=
  tr.map (fun p => if p.1 = a then (p.1, c) else p)

/-- One iteration of the `for _, split_r in splits.iterrows()` loop. -/
def applySplitRow (tr : List (String × List ℚ)) (d : ℕ) (a : String)
    (m : ℚ) : List (String × List ℚ) :=
  setColTr tr a (applySplitAt (colOf tr a) d m)

/-- `Holdings._adjust_splits` on the trades matrix. -/
def adjustSplits (mapper : List (String × String)) (rows : List LedgerRow)
    (tr : List (String × List ℚ)) : Option (List (String × List ℚ)) :=
  (parsedSplits mapper rows).map
    (fun ps => (groupProd ps).foldl
      (fun t x => applySplitRow t x.1 x.2.1 x.2.2) tr)

lemma dedupKeysAux_all_seen (seen : List (ℕ × String))
    (l : List (ℕ × String)) (h : ∀ x ∈ l, x ∈ seen) :
    dedupKeysAux seen l = [] := by
  induction l with
  | nil => rfl
  | cons k ks ih =>
    unfold dedupKeysAux
    rw [if_pos (h k (List.mem_cons_self _ _))]
    exact ih (fun x hx => h x (List.mem_cons_of_mem _ hx))

lemma dedupKeys_const (k : ℕ × String) (l : List (ℕ × String))
    (hne : l ≠ []) (h : ∀ x ∈ l, x = k) :
    dedupKeysAux [] l = [k] := by
  cases l with
  | nil => exact absurd rfl hne
  | cons k0 ks =>
    have hk0 : k0 = k := h k0 (List.mem_cons_self _ _)
    subst hk0
    unfold dedupKeysAux
    rw [if_neg (List.not_mem_nil _)]
    rw [dedupKeysAux_all_seen _ ks
      (fun x hx => by rw [h x (List.mem_cons_of_mem _ hx)]; exact
        List.mem_cons_self _ _)]

lemma groupProd_const (ps : List (ℕ × String × ℚ)) (d : ℕ) (a : String)
    (hne : ps ≠ []) (hk : ∀ x ∈ ps, x.1 = d ∧ x.2.1 = a) :
    groupProd ps = [(d, a, (ps.map (fun x => x.2.2)).prod)] := by
  unfold groupProd
  have hkeys : dedupKeysAux [] (ps.map (fun x => (x.1, x.2.1))) = [(d, a)] := by
    refine dedupKeys_const (d, a) _ ?_ ?_
    · intro hc
      exact hne (List.map_eq_nil.mp hc)
    · intro x hx
      obtain ⟨p, hp, rfl⟩ := List.mem_map.mp hx
      obtain ⟨h1, h2⟩ := hk p hp
      rw [h1, h2]
  rw [hkeys]
  have hfilter : ps.filter (fun x => (x.1, x.2.1) = (d, a)) = ps := by
    refine List.filter_eq_self.mpr ?_
    intro x hx
    obtain ⟨h1, h2⟩ := hk x hx
    rw [h1, h2]
    simp
  simp only [List.foldl_cons, List.foldl_nil, insortKey, List.map_cons,
    List.map_nil]
  rw [hfilter]

/-- C3 (amended by the duplicate-row drop): when the deduplicated split
rows of a ledger all target the same `(date, asset)` pair, the applied
adjustment is a single split whose multiplier is the product of their
individual multipliers — identical to the ledger carrying one combined
split row. Split rows that share both the exact ledger timestamp and the
identical Details text are first collapsed to a single occurrence by
`drop_duplicates(['Date', 'Details'])` and do not compound. -/
theorem same_day_splits_compound (mapper : List (String × String))
    (rows : List LedgerRow) (tr : List (String × List ℚ)) (d : ℕ)
    (a : String) (ps : List (ℕ × String × ℚ))
    (hparse : parsedSplits mapper rows = some ps)
    (hne : ps ≠ [])
    (hkeys : ∀ x ∈ ps, x.1 = d ∧ x.2.1 = a)
    (r₀ : LedgerRow)
    (hr₀ : parsedSplits mapper [r₀]
      = some [(d, a, (ps.map (fun x => x.2.2)).prod)]) :
    adjustSplits mapper rows tr
        = some (applySplitRow tr d a ((ps.map (fun x => x.2.2)).prod)) ∧
      adjustSplits mapper rows tr = adjustSplits mapper [r₀] tr := by
  have h1 : adjustSplits mapper rows tr
      = some (applySplitRow tr d a ((ps.map (fun x => x.2.2)).prod)) := by
    unfold adjustSplits
    rw [hparse, Option.map_some', groupProd_const ps d a hne hkeys]
    rfl
  refine ⟨h1, ?_⟩
  rw [h1]
  unfold adjustSplits
  rw [hr₀, Option.map_some',
      groupProd_const [(d, a, (ps.map (fun x => x.2.2)).prod)] d a
        (by simp) (by simp)]
  simp [applySplitRow]

/-- Witness for C3: two split rows `2:1` and `3:1` for NVDA at different
times of day 5 compound to the single split `6:1`. -/
theorem same_day_splits_witness :
    adjustSplits [("NVDA", "NVDA.O")]
        [⟨5, 1, "corp action: Split", "NVDA/USD 2:1"⟩,
         ⟨5, 2, "corp action: Split", "NVDA/USD 3:1"⟩]
        [("NVDA.O", [10, 0, 0, 0, 0, 0])]
      = some (applySplitRow [("NVDA.O", [10, 0, 0, 0, 0, 0])] 5 "NVDA.O"
          ((([((5 : ℕ), ("NVDA.O", ((2 : ℕ) : ℚ)/((1 : ℕ) : ℚ))),
              ((5 : ℕ), ("NVDA.O", ((3 : ℕ) : ℚ)/((1 : ℕ) : ℚ)))]).map
            (fun x => x.2.2)).prod)) ∧
      adjustSplits [("NVDA", "NVDA.O")]
          [⟨5, 1, "corp action: Split", "NVDA/USD 2:1"⟩,
           ⟨5, 2, "corp action: Split", "NVDA/USD 3:1"⟩]
          [("NVDA.O", [10, 0, 0, 0, 0, 0])]
        = adjustSplits [("NVDA", "NVDA.O")]
            [⟨5, 1, "corp action: Split", "NVDA/USD 6:1"⟩]
            [("NVDA.O", [10, 0, 0, 0, 0, 0])] :=
  same_day_splits_compound [("NVDA", "NVDA.O")]
    [⟨5, 1, "corp action: Split", "NVDA/USD 2:1"⟩,
     ⟨5, 2, "corp action: Split", "NVDA/USD 3:1"⟩]
    [("NVDA.O", [10, 0, 0, 0, 0, 0])] 5 "NVDA.O"
    [((5 : ℕ), ("NVDA.O", ((2 : ℕ) : ℚ)/((1 : ℕ) : ℚ))),
     ((5 : ℕ), ("NVDA.O", ((3 : ℕ) : ℚ)/((1 : ℕ) : ℚ)))]
    rfl (by simp) (by simp)
    ⟨5, 1, "corp action: Split", "NVDA/USD 6:1"⟩
    (by
      rw [show parsedSplits [("NVDA", "NVDA.O")]
            [⟨5, 1, "corp action: Split", "NVDA/USD 6:1"⟩]
          = some [((5 : ℕ), ("NVDA.O", ((6 : ℕ) : ℚ)/((1 : ℕ) : ℚ)))]
        from rfl]
      norm_num)

/-- Counterexample to C3 as stated: two split rows with identical
timestamps and identical Details text `"NVDA/USD 2:1"` are collapsed by
`drop_duplicates(['Date', 'Details'])` before the product — while holding
10 units, the day-5 holdings come out as 20 (one 2:1 split), not the 40
a product multiplier `2 * 2` would give. -/
theorem duplicate_split_details_not_compounded :
    adjustSplits [("NVDA", "NVDA.O")]
        [⟨5, 1, "corp action: Split", "NVDA/USD 2:1"⟩,
         ⟨5, 1, "corp action: Split", "NVDA/USD 2:1"⟩]
        [("NVDA.O", [10, 0, 0, 0, 0, 0])]
      = adjustSplits [("NVDA", "NVDA.O")]
          [⟨5, 1, "corp action: Split", "NVDA/USD 2:1"⟩]
          [("NVDA.O", [10, 0, 0, 0, 0, 0])] ∧
      (adjustSplits [("NVDA", "NVDA.O")]
          [⟨5, 1, "corp action: Split", "NVDA/USD 2:1"⟩,
           ⟨5, 1, "corp action: Split", "NVDA/USD 2:1"⟩]
          [("NVDA.O", [10, 0, 0, 0, 0, 0])]).map
          (fun t => holdingsFF (colOf t "NVDA.O") 5)
        = some 20 ∧
      (20 : ℚ) ≠ (2 * 2) * 10 := by
  refine ⟨rfl, ?_, by norm_num⟩
  have h2 : adjustSplits [("NVDA", "NVDA.O")]
      [⟨5, 1, "corp action: Split", "NVDA/USD 2:1"⟩,
       ⟨5, 1, "corp action: Split", "NVDA/USD 2:1"⟩]
      [("NVDA.O", [10, 0, 0, 0, 0, 0])]
    = some (applySplitRow [("NVDA.O", [10, 0, 0, 0, 0, 0])] 5 "NVDA.O"
        (((2 : ℕ) : ℚ)/((1 : ℕ) : ℚ) * 1)) := rfl
  rw [h2, Option.map_some']
  have h3 : colOf (applySplitRow [("NVDA.O", [10, 0, 0, 0, 0, 0])] 5
      "NVDA.O" (((2 : ℕ) : ℚ)/((1 : ℕ) : ℚ) * 1)) "NVDA.O"
    = applySplitAt [(10 : ℚ), 0, 0, 0, 0, 0] 5
        (((2 : ℕ) : ℚ)/((1 : ℕ) : ℚ) * 1) := rfl
  rw [h3]
  norm_num [holdingsFF, applySplitAt, heldThrough, cumsum, clampAll, clampQ,
    List.range_succ]

/-! ## Valuator schema check (`Portfolio.__init__`,
pyfinex/portfolio.py 63-64)

`assert all(holdings_obj.holdings.columns == prices.columns)`: the pandas
elementwise `==` raises `ValueError` when the two column sequences have
different lengths, and yields an all-`True` vector only when they agree
position by position; either failure aborts the constructor. -/

/-- The value-check of the constructor: `some b` is the `all(...)` result,
`none` the length-mismatch `ValueError`. -/
def columnsElementwiseEqual (hcols pcols : List String) : Option Bool :=
  if hcols.length = pcols.length then
    some ((hcols.zip pcols).all (fun x => x.1 = x.2))
  else none

/-- The constructor passes its schema check. -/
def schemaCheckPasses (hcols pcols : List String) : Prop :=
  columnsElementwiseEqual hcols pcols = some true

/-- C8 (amended to ordered equality): the constructor's schema check
passes exactly when the holdings column list equals the price column list
as an ordered sequence — not merely as a set. -/
theorem schema_check_iff_ordered_equal (hcols pcols : List String) :
    schemaCheckPasses hcols pcols ↔ hcols = pcols := by
  unfold schemaCheckPasses columnsElementwiseEqual
  constructor
  · intro h
    by_cases hlen : hcols.length = pcols.length
    · rw [if_pos hlen] at h
      have hall := Option.some.inj h
      rw [List.all_eq_true] at hall
      refine List.ext_get hlen ?_
      intro i h1 h2
      have hmem : (hcols.get ⟨i, h1⟩, pcols.get ⟨i, h2⟩) ∈ hcols.zip pcols := by
        rw [List.mem_iff_getElem]
        refine ⟨i, by rw [List.length_zip]; omega, ?_⟩
        rw [List.getElem_zip]
        rfl
      have := hall _ hmem
      simpa using this
    · rw [if_neg hlen] at h
      exact absurd h (by simp)
  · rintro rfl
    rw [if_pos rfl]
    congr 1
    rw [List.all_eq_true]
    intro x hx
    obtain ⟨i, hi, rfl⟩ := List.mem_iff_getElem.mp hx
    rw [List.getElem_zip]
    simp

/-- Counterexample to C8 as stated: holdings columns `["A", "B"]` and
price columns `["B", "A"]` are equal as sets, yet the order-sensitive
elementwise assertion fails and the constructor aborts. -/
theorem schema_check_rejects_reordered_columns :
    (["A", "B"] : List String).toFinset = (["B", "A"] : List String).toFinset
      ∧ ¬ schemaCheckPasses ["A", "B"] ["B", "A"] := by
  constructor
  · decide
  · unfold schemaCheckPasses columnsElementwiseEqual
    decide

/-- Witness for the amended C8: equal ordered column lists pass the
check. -/
theorem schema_check_witness : schemaCheckPasses ["A", "B"] ["A", "B"] :=
  (schema_check_iff_ordered_equal ["A", "B"] ["A", "B"]).mpr rfl

/-! ## Weights (`Portfolio.__init__`, pyfinex/portfolio.py 104-106)

`self.weights = self.nav_breakdown.div(self.nav_breakdown.sum(axis=1),
axis=0)`: every breakdown cell is divided by its row total.  Breakdown
cells are finite floats; the division follows IEEE-754 semantics, so a
zero denominator yields NaN only for a zero numerator and ±inf
otherwise.  `FVal` models the reachable IEEE values. -/

inductive FVal where
  | num (q : ℚ)
  | nan
  | pinf
  | ninf
  deriving DecidableEq

/-- IEEE float division of finite values. -/
def fdiv (a b : ℚ) : FVal :=
  if b ≠ 0 then .num (a / b)
  else if 0 < a then .pinf
  else if a < 0 then .ninf
  else .nan

/-- One date's weights row: each breakdown cell divided by the row-wise
NAV total. -/
def weightsRow (row : List ℚ) : List FVal :=
  row.map (fun b => fdiv b row.sum)

/-- C6 (amended at NAV = 0): whenever a date's NAV is non-zero its
weights row consists of finite numbers summing to 1 (within 1e-9 —
exactly 1 in exact arithmetic); whenever NAV is 0, each weight is NaN at
breakdown entries equal to 0 but ±inf at non-zero entries, so an all-NaN
row arises exactly when the whole breakdown row is zero. -/
theorem weights_row_sum_and_zero_nav (rows : List (List ℚ)) :
    ∀ row ∈ rows,
      (row.sum ≠ 0 →
        weightsRow row = row.map (fun b => FVal.num (b / row.sum)) ∧
        |(row.map (fun b => b / row.sum)).sum - 1| ≤ 1 / 10 ^ 9) ∧
      (row.sum = 0 →
        weightsRow row = row.map
          (fun b => if b = 0 then FVal.nan
            else if 0 < b then FVal.pinf else FVal.ninf)) := by
  intro row _
  constructor
  · intro hnz
    constructor
    · unfold weightsRow
      refine List.map_congr_left ?_
      intro b _
      unfold fdiv
      rw [if_pos hnz]
    · have key : ∀ (c : ℚ) (l : List ℚ),
          (l.map (fun b => b / c)).sum = l.sum / c := by
        intro c l
        induction l with
        | nil => simp
        | cons x xs ih => simp [List.sum_cons, add_div, ih]
      rw [key row.sum row, div_self hnz]
      norm_num
  · intro hz
    unfold weightsRow
    refine List.map_congr_left ?_
    intro b _
    unfold fdiv
    rw [hz]
    simp only [ne_eq, not_true_eq_false, if_false]
    by_cases hb : b = 0
    · rw [hb]
      simp
    · rcases lt_or_gt_of_ne hb with h | h
      · rw [if_neg (not_lt_of_gt h), if_pos h, if_neg hb,
            if_neg (not_lt_of_gt h)]
      · rw [if_pos h, if_neg hb, if_pos h]

/-- Counterexample to C6 as stated: on a date with breakdown `(100, -100)`
the NAV is 0 but the weights are `+inf` and `-inf`, not NaN. -/
theorem zero_nav_weights_cex :
    ([100, -100] : List ℚ).sum = 0 ∧
      weightsRow [100, -100] = [FVal.pinf, FVal.ninf] ∧
      FVal.pinf ≠ FVal.nan := by
  refine ⟨by norm_num, ?_, by decide⟩
  norm_num [weightsRow, fdiv]

/-- Witness for the amended C6: breakdown `(30, 50, 20)` has weights
summing to exactly 1, and the all-zero breakdown row yields all-NaN
weights. -/
theorem weights_row_witness :
    (weightsRow [30, 50, 20]
        = ([30, 50, 20] : List ℚ).map
            (fun b => FVal.num (b / ([30, 50, 20] : List ℚ).sum)) ∧
      |(([30, 50, 20] : List ℚ).map
          (fun b => b / ([30, 50, 20] : List ℚ).sum)).sum - 1|
        ≤ 1 / 10 ^ 9) ∧
      weightsRow [0, 0] = [FVal.nan, FVal.nan] := by
  have h := weights_row_sum_and_zero_nav [[30, 50, 20], [0, 0]]
  refine ⟨(h [30, 50, 20] (by simp)).1 (by norm_num), ?_⟩
  have h2 := (h [0, 0] (by simp)).2 (by simp)
  rw [h2]
  rfl

/-! ## Caller-visible ledger mutation (`Holdings.from_etoro`,
portfolio/holdings.py 67-81, and `Portfolio.from_etoro`,
portfolio/portfolio.py 69-83)

The first steps of `from_etoro` act on the caller's DataFrame itself:
`acc_activity["Date"] = pd.to_datetime(...)` overwrites the Date column,
`acc_activity.set_index("Date", inplace=True)` moves it into the index,
and `acc_activity[columns_to_convert] = ...` coerces the `'Amount'` —
`'Balance'` label-slice of columns to numeric in place.  Later steps work
on copies.  The caller's frame after the call is therefore the
transformed frame; the two pandas library parsers (`to_datetime` and the
cleaning + `to_numeric`) are collaborator parameters. -/

inductive Cell where
  | str (s : String)
  | num (q : ℚ)
  | nan
  | dt (day : ℕ) (time : ℕ)
  deriving DecidableEq

structure Frame where
  index : List Cell
  cols : List (String × List Cell)
  deriving DecidableEq

def getColVals (f : Frame) (name : String) : List Cell :=
  ((f.cols.find? (fun p => p.1 = name)).map Prod.snd).getD []

/-- `acc_activity[name] = vals`, overwriting in place. -/
def setColVals (f : Frame) (name : String) (vals : List Cell) : Frame :=
  { f with cols := f.cols.map (fun p => if p.1 = name then (p.1, vals) else p) }

/-- `acc_activity.set_index("Date", inplace=True)`. -/
def setIndexDate (f : Frame) : Frame :=
  { index := getColVals f "Date",
    cols := f.cols.filter (fun p => ¬ p.1 = "Date") }

def takeThrough (b : String) : List String → List String
  | [] => []
  | n :: ns => if n = b then [n] else n :: takeThrough b ns

/-- `acc_activity.loc[:, 'Amount':'Balance'].columns`: the label slice of
column names from `'Amount'` through `'Balance'` in column order. -/
def colsToConvert (f : Frame) : List String :=
  takeThrough "Balance"
    ((f.cols.map Prod.fst).dropWhile (fun n => ¬ n = "Amount"))

/-- `acc_activity[columns_to_convert] = ...`: coerce the cells of the
`'Amount'`–`'Balance'` column slice in place. -/
def coerceNumericCols (numParse : Cell → Cell) (f : Frame) : Frame :=
  Frame.mk f.index
    (f.cols.map (fun p =>
      if p.1 ∈ colsToConvert f then (p.1, p.2.map numParse) else p))

/-- The caller's `acc_activity` object after `from_etoro` returns: Date
column parsed and moved into the index, `'Amount'`–`'Balance'` columns
coerced to numeric. -/
def etoroCallerState (dateParse : Cell → Cell) (numParse : Cell → Cell)
    (f : Frame) : Frame :=
  coerceNumericCols numParse
    (setIndexDate (setColVals f "Date"
      ((getColVals f "Date").map dateParse)))

lemma names_map_update (cols : List (String × List Cell))
    (upd : String × List Cell → String × List Cell)
    (h : ∀ q, (upd q).1 = q.1) :
    (cols.map upd).map Prod.fst = cols.map Prod.fst := by
  induction cols with
  | nil => rfl
  | cons q qs ih => simp [h q, ih]

lemma names_filter_date (cols : List (String × List Cell)) :
    (cols.filter (fun p => ¬ p.1 = "Date")).map Prod.fst
      = (cols.map Prod.fst).filter (fun n => ¬ n = "Date") := by
  induction cols with
  | nil => rfl
  | cons q qs ih =>
    by_cases hq : q.1 = "Date"
    · rw [List.filter_cons_of_neg (by simp [hq]), List.map_cons,
          List.filter_cons_of_neg (by simp [hq])]
      exact ih
    · rw [List.filter_cons_of_pos (by simp [hq]), List.map_cons,
          List.map_cons, List.filter_cons_of_pos (by simp [hq]), ih]

lemma names_coerce (numParse : Cell → Cell) (f : Frame) :
    (coerceNumericCols numParse f).cols.map Prod.fst
      = f.cols.map Prod.fst := by
  show (f.cols.map (fun p =>
      if p.1 ∈ colsToConvert f then (p.1, p.2.map numParse)
      else p)).map Prod.fst = f.cols.map Prod.fst
  refine names_map_update _ _ ?_
  intro q
  by_cases hq : q.1 ∈ colsToConvert f <;> simp [hq]

lemma names_setColVals (f : Frame) (name : String) (vals : List Cell) :
    (setColVals f name vals).cols.map Prod.fst = f.cols.map Prod.fst := by
  refine names_map_update _ _ ?_
  intro q
  by_cases hq : q.1 = name <;> simp [hq]

lemma names_setIndexDate (f : Frame) :
    (setIndexDate f).cols.map Prod.fst
      = (f.cols.map Prod.fst).filter (fun n => ¬ n = "Date") :=
  names_filter_date f.cols

/-- C4 (amended): `from_etoro` mutates the caller's ledger in place — the
caller's DataFrame afterwards is the transformed frame whose column set
has lost the Date column (moved into the index), so it is never equal to
its value before the call when the ledger carried a Date column.  (The
claim's universal "no component mutates a caller-provided table" fails at
`from_etoro`.) -/
theorem from_etoro_mutates_ledger (dateParse numParse : Cell → Cell)
    (f : Frame) (hdate : "Date" ∈ f.cols.map Prod.fst) :
    ((etoroCallerState dateParse numParse f).cols.map Prod.fst
        = (f.cols.map Prod.fst).filter (fun n => ¬ n = "Date")) ∧
      etoroCallerState dateParse numParse f ≠ f := by
  have hnames : (etoroCallerState dateParse numParse f).cols.map Prod.fst
      = (f.cols.map Prod.fst).filter (fun n => ¬ n = "Date") := by
    unfold etoroCallerState
    rw [names_coerce, names_setIndexDate, names_setColVals]
  refine ⟨hnames, ?_⟩
  intro heq
  have hn := congrArg (fun g : Frame => g.cols.map Prod.fst) heq
  simp only at hn
  rw [hnames] at hn
  have hmem : ("Date" : String) ∈ (f.cols.map Prod.fst).filter
      (fun n => ¬ n = "Date") := by
    rw [hn]
    exact hdate
  rw [List.mem_filter] at hmem
  simp at hmem

/-- Counterexample to C4 as stated: a one-row ledger frame passed to
`from_etoro` is observably different after the call (its Date column is
gone from the column set). -/
theorem from_etoro_mutation_cex :
    etoroCallerState (fun _ => Cell.dt 0 0) (fun _ => Cell.nan)
        ⟨[Cell.str "0"],
         [("Date", [Cell.str "01/02/2021 10:00"]),
          ("Type", [Cell.str "Deposit"]),
          ("Details", [Cell.str ""]),
          ("Amount", [Cell.str "1,000"]),
          ("Units / Contracts", [Cell.str ""]),
          ("Balance", [Cell.str "1000"])]⟩
      ≠ ⟨[Cell.str "0"],
         [("Date", [Cell.str "01/02/2021 10:00"]),
          ("Type", [Cell.str "Deposit"]),
          ("Details", [Cell.str ""]),
          ("Amount", [Cell.str "1,000"]),
          ("Units / Contracts", [Cell.str ""]),
          ("Balance", [Cell.str "1000"])]⟩ := by
  decide

/-- Witness for the amended C4: on a three-column ledger the caller's
frame keeps only the Amount and Balance columns and differs from its
pre-call value. -/
theorem from_etoro_mutation_witness :
    ((etoroCallerState (fun _ => Cell.dt 1 2) (fun _ => Cell.num 0)
        ⟨[Cell.str "0"],
         [("Date", [Cell.str "x"]), ("Amount", [Cell.str "1"]),
          ("Balance", [Cell.str "2"])]⟩).cols.map Prod.fst
      = ["Amount", "Balance"]) ∧
      etoroCallerState (fun _ => Cell.dt 1 2) (fun _ => Cell.num 0)
        ⟨[Cell.str "0"],
         [("Date", [Cell.str "x"]), ("Amount", [Cell.str "1"]),
          ("Balance", [Cell.str "2"])]⟩
      ≠ ⟨[Cell.str "0"],
         [("Date", [Cell.str "x"]), ("Amount", [Cell.str "1"]),
          ("Balance", [Cell.str "2"])]⟩ := by
  have h := from_etoro_mutates_ledger (fun _ => Cell.dt 1 2)
    (fun _ => Cell.num 0)
    ⟨[Cell.str "0"],
     [("Date", [Cell.str "x"]), ("Amount", [Cell.str "1"]),
      ("Balance", [Cell.str "2"])]⟩ (by simp)
  exact ⟨h.1.trans (by rfl), h.2⟩

